import Mathlib

/-!
# Verification of the `mv-with` core (`src/internals.rs`)

A shallow embedding of the path-list / rename-plan core of the `mv-with`
repository, together with theorems settling the specification claims.

Modelling conventions:

* A Rust `String` buffer is modelled as a `List Char`; byte offsets are
  modelled as offsets in this character sequence (exact for ASCII buffers,
  and all offset arithmetic in the source is performed on whole-line
  slices, so the arithmetic structure is identical).
* The self-referential `SharedPaths` struct (a buffer plus `&Utf8Path`
  slices borrowed from it) is modelled arena-style: each entry stores the
  start offset of its slice in the buffer together with the slice's
  characters.  `substring_range`, which in Rust recovers the offset by
  pointer arithmetic, therefore reads the stored offset.
* Filesystem effects (`exists`, `canonicalize` depth, `rename`) are
  modelled as explicit environment parameters.
* `Utf8Path` equality (used by `RenameRequest::new`) is modelled as
  equality of the underlying slices.
-/

/-- Decidable equality of `Except` results, used to evaluate the model on
concrete inputs. -/
instance {ε α : Type} [DecidableEq ε] [DecidableEq α] : DecidableEq (Except ε α)
  | .error e1, .error e2 =>
    if h : e1 = e2 then isTrue (h ▸ rfl) else isFalse fun hc => h (Except.error.inj hc)
  | .ok a1, .ok a2 =>
    if h : a1 = a2 then isTrue (h ▸ rfl) else isFalse fun hc => h (Except.ok.inj hc)
  | .error _, .ok _ => isFalse fun hc => Except.noConfusion hc
  | .ok _, .error _ => isFalse fun hc => Except.noConfusion hc

/-- ASCII fragment of Rust `char::is_whitespace` (the Unicode whitespace
code points do not occur in the inputs considered here). -/
def isRustWhitespace (c : Char) : Bool :=
  c == ' ' || c == '\t' || c == '\n' || c == '\x0b' || c == '\x0c' || c == '\r'

/-- Rust `str::trim_end` on the buffer (followed in `parse_reader` by
`truncate`, which realises exactly this dropping of trailing whitespace). -/
def trimEnd (l : List Char) : List Char :=
  (l.reverse.dropWhile isRustWhitespace).reverse

/-- Rust `str::trim`: whitespace dropped from both ends. -/
def rustTrim (l : List Char) : List Char :=
  (trimEnd l).dropWhile isRustWhitespace

/-- Split a buffer at every newline character, keeping the start offset of
each segment.  `pos` is the offset of the first character of `l` in the
underlying buffer.  Produces the `n + 1` segments of a buffer containing
`n` newlines (the raw `str::split('\n')` of Rust). -/
def splitSegs : Nat → List Char → List (Nat × List Char)
  | pos, [] => [(pos, [])]
  | pos, c :: rest =>
    if c = '\n' then
      (pos, []) :: splitSegs (pos + 1) rest
    else
      match splitSegs (pos + 1) rest with
      | [] => [(pos, [c])]
      | (_, seg) :: more => (pos, c :: seg) :: more

/-- Rust `str::lines` drops the final segment when it is empty (the final
line terminator is optional). -/
def dropTrailingEmptySeg (segs : List (Nat × List Char)) : List (Nat × List Char) :=
  match segs.getLast? with
  | some (_, []) => segs.dropLast
  | _ => segs

/-- Rust `str::lines` strips one trailing carriage return from each line. -/
def stripTrailingCR (s : List Char) : List Char :=
  match s.getLast? with
  | some c => if c = '\r' then s.dropLast else s
  | none => s

/-- Rust `str::lines` over the buffer, each line paired with the offset of
its first character in the buffer. -/
def rustLines (buf : List Char) : List (Nat × List Char) :=
  (dropTrailingEmptySeg (splitSegs 0 buf)).map (fun p => (p.1, stripTrailingCR p.2))

/-- One entry of a `SharedPaths`: a `&Utf8Path` slice into the shared
buffer, represented by its start offset and its characters. -/
structure Entry where
  start : Nat
  path : List Char
deriving DecidableEq, Repr

/-- Rust `SharedPaths::substring_range`: the byte range of an entry inside the
shared buffer, recovered in Rust by pointer arithmetic and here from the
stored offset. -/
def substringRange (e : Entry) : Nat × Nat :=
  (e.start, e.start + e.path.length)

/-- Rust `FileList` (a newtype over `SharedPaths`): the owned text buffer and
the derived per-line path slices. -/
structure FileList where
  buffer : List Char
  entries : List Entry
deriving DecidableEq, Repr

/-- A `codespan_reporting` label: a byte range in the buffer plus a
message. -/
structure Label where
  range : Nat × Nat
  message : String
deriving DecidableEq, Repr

/-- Errors of `FileList` construction (`FLParseError`). -/
inductive FLParseError where
  | EmptyDirectory : FLParseError
  | EmptyStdIn : FLParseError
  | FileDoesNotExist : List Label → FLParseError
deriving DecidableEq, Repr

/-- Errors of `RenameRequest` construction (`RRParseError`). -/
inductive RRParseError where
  | TooFewLines : Nat → RRParseError
  | TooManyLines : Nat × Nat → RRParseError
  | FileUnchanged : RRParseError
deriving DecidableEq, Repr

namespace FileList

/-- Rust `FileList::from_string`: derive the per-line entries from the buffer
with `str::lines`. -/
def fromString (buffer : List Char) : FileList :=
  ⟨buffer, (rustLines buffer).map (fun p => ⟨p.1, p.2⟩)⟩

/-- Rust `FileList::parse_reader`: read the stream to a string, truncate the
trailing whitespace, and fail with `EmptyStdIn` when nothing but
whitespace remains. -/
def parseReader (input : List Char) : Except (List Char × FLParseError) FileList :=
  let buf := trimEnd input
  if (rustTrim buf).isEmpty then
    .error (buf, .EmptyStdIn)
  else
    .ok (fromString buf)

/-- Rust `FileList::parse_walker`: join the walked file names with newlines and
fail with `EmptyDirectory` when the joined buffer is blank.  The directory
walk itself (and its `skip(1)` of the root entry) is the external
collaborator producing `filenames`. -/
def parseWalker (filenames : List (List Char)) : Except (List Char × FLParseError) FileList :=
  let buf := (filenames.intersperse ['\n']).flatten
  if (rustTrim buf).isEmpty then
    .error (buf, .EmptyDirectory)
  else
    .ok (fromString buf)

/-- Rust `FileList::confirm_files_exist`: one label per entry that fails the
filesystem existence check `fsExists`, in entry order; succeeds only when
no label was collected. -/
def confirmFilesExist (fsExists : List Char → Bool) (fl : FileList) :
    Except (List Char × FLParseError) FileList :=
  let labels := (fl.entries.filter (fun e => !(fsExists e.path))).map
    (fun e => Label.mk (substringRange e) "File does not exist")
  if labels.isEmpty then
    .ok fl
  else
    .error (fl.buffer, .FileDoesNotExist labels)

/-- The `usize::MAX` constant of the sort key in
`FileList::sort_by_file_depth`. -/
def USIZEMAX : Nat := 2 ^ 64 - 1

/-- The sort key of `sort_by_file_depth`: `usize::MAX` minus the component
count of the canonicalized path.  `depth` is the environment modelling
`std::fs::canonicalize(path).components().count()`. -/
def depthKey (depth : List Char → Nat) (e : Entry) : Nat :=
  USIZEMAX - depth e.path

/-- Rust `FileList::sort_by_file_depth`: stable sort (Rust `sort_by_key`) of
the entries by ascending `depthKey`; the buffer is not touched. -/
def sortByFileDepth (depth : List Char → Nat) (fl : FileList) : FileList :=
  ⟨fl.buffer, fl.entries.mergeSort (fun a b => depthKey depth a ≤ depthKey depth b)⟩

/-- Rust `FileList::as_string`: push every entry followed by a newline, then
pop the final newline. -/
def asString (fl : FileList) : List Char :=
  ((fl.entries.map (fun e => e.path)).foldr (fun p acc => p ++ '\n' :: acc) []).dropLast

/-- The `AsRef<str>` impl for `FileList`: the exact backing buffer. -/
def asRefStr (fl : FileList) : List Char :=
  fl.buffer

end FileList

namespace FLParseError

/-- Rust `FLParseError::status`: the process exit status attached to each
variant. -/
def status : FLParseError → Option Int
  | .FileDoesNotExist _ => some 1
  | .EmptyDirectory => some 0
  | .EmptyStdIn => some 0

end FLParseError

namespace RRParseError

/-- Rust `RRParseError::status`. -/
def status : RRParseError → Option Int
  | .FileUnchanged => some 0
  | .TooFewLines _ => some 1
  | .TooManyLines _ => some 1

end RRParseError

/-- Severity of a `codespan_reporting` diagnostic. -/
inductive Severity where
  | error : Severity
  | warning : Severity
  | note : Severity
deriving DecidableEq, Repr

/-- The part of a `codespan_reporting` `Diagnostic` produced by the core:
severity, message, labels and notes. -/
structure Diagnostic where
  severity : Severity
  message : String
  labels : List Label
  notes : List String
deriving DecidableEq, Repr

/-- Rust `FLParseError::report`. -/
def FLParseError.report : FLParseError → Diagnostic
  | .EmptyDirectory =>
    ⟨.warning, "Directory is empty", [],
      ["By default, mv-with respects filters such as globs, file types and .gitignore files",
       "Use StdIn for finegrained control, eg. `ls -A | mv-with vim`"]⟩
  | .EmptyStdIn => ⟨.warning, "StdIn is empty", [], []⟩
  | .FileDoesNotExist labels => ⟨.error, "File does not exist", labels, []⟩

/-- Rust `RRParseError::report`. -/
def RRParseError.report : RRParseError → Diagnostic
  | .FileUnchanged => ⟨.note, "Temporary file was unchanged", [], []⟩
  | .TooFewLines e =>
    ⟨.error, "Unexpected EOF", [Label.mk (e, e) "Unexpected EOF"],
      ["temporary file should have the same number of lines before and after editing"]⟩
  | .TooManyLines r =>
    ⟨.error, "Too many lines in temporary file", [Label.mk r ("Expected EOF")],
      ["temporary file should have the same number of lines before and after editing"]⟩

/-- Rust `CannotRenameFile`: the failing `(origin, target)` pair and the
formatted OS error. -/
structure CannotRenameFile where
  pair : List Char × List Char
  osError : String
deriving DecidableEq, Repr

/-- Rust `RenameRequest`: two `SharedPaths` with index-aligned entries. -/
structure RenameRequest where
  origin : FileList
  target : FileList
deriving DecidableEq, Repr

namespace RenameRequest

/-- Rust `RenameRequest::new`: compare entry counts (`target_len.cmp(&origin_len)`);
on equal counts fail with `FileUnchanged` when every aligned pair of paths
is equal, on fewer target lines fail with `TooFewLines` at the end of the
target buffer, on more target lines fail with `TooManyLines` from just
after the target entry at index `origin_len - 1` to the end of the target
buffer. -/
def new (origin target : FileList) : Except (List Char × RRParseError) RenameRequest :=
  let originLen := origin.entries.length
  let targetLen := target.entries.length
  match compare targetLen originLen with
  | .eq =>
    if (origin.entries.zip target.entries).all (fun p => p.1.path == p.2.path) then
      .error (target.buffer, .FileUnchanged)
    else
      .ok ⟨origin, target⟩
  | .lt =>
    .error (target.buffer, .TooFewLines target.buffer.length)
  | .gt =>
    let lastShared := target.entries.getD (originLen - 1) ⟨0, []⟩
    let start := (substringRange lastShared).2 + 1
    .error (target.buffer, .TooManyLines (start, target.buffer.length))

/-- One step of `RenameRequest::rename`, threading the filesystem state
`fs` through `std::fs::rename` (modelled by `step`) and recording every
attempted pair.  Stops at the first failing pair, wrapping the pair and
the formatted OS error in `CannotRenameFile`. -/
def renameGo {Fs : Type} (step : Fs → List Char → List Char → Except String Fs) :
    Fs → List (Entry × Entry) → List (Entry × Entry) × Except CannotRenameFile Fs
  | fs, [] => ([], .ok fs)
  | fs, (before, after) :: rest =>
    match step fs before.path after.path with
    | .error e => ([(before, after)], .error ⟨(before.path, after.path), e⟩)
    | .ok fs1 =>
      let r := renameGo step fs1 rest
      ((before, after) :: r.1, r.2)

/-- Rust `RenameRequest::rename`: iterate the zipped `(origin, target)` entry
pairs in current order.  The first component of the result is the sequence
of `std::fs::rename` calls actually issued (the footprint of the Rust
function on the real filesystem), the second the returned `Result`. -/
def rename {Fs : Type} (step : Fs → List Char → List Char → Except String Fs)
    (fs : Fs) (rr : RenameRequest) :
    List (Entry × Entry) × Except CannotRenameFile Fs :=
  renameGo step fs (rr.origin.entries.zip rr.target.entries)

end RenameRequest

/-- A `dissimilar::Chunk`. -/
inductive Chunk where
  | Equal : List Char → Chunk
  | Delete : List Char → Chunk
  | Insert : List Char → Chunk
deriving DecidableEq, Repr

/-- Longest shared leading run of two lists. -/
def commonHead : List Char → List Char → List Char
  | a :: as, b :: bs => if a = b then a :: commonHead as bs else []
  | _, _ => []

/-- Longest shared trailing run of two lists. -/
def commonLast (a b : List Char) : List Char :=
  (commonHead a.reverse b.reverse).reverse

/-- Modelled from the external `dissimilar` crate (an external
collaborator excluded from the core): `dissimilar::diff` first handles
equal inputs, then strips the common head and tail; when one remaining
side is empty the other is a pure deletion or insertion.  The interior
refinement of the general case (Myers bisection) is modelled coarsely as
one deletion followed by one insertion; every property proved below
depends only on the outer cases, which agree with `dissimilar` exactly
(in any chunking that reconstructs both inputs, a singleton chunk list
forces one of the outer shapes). -/
def diffChunks (before after : List Char) : List Chunk :=
  if before = after then
    if before = [] then [] else [.Equal before]
  else
    let h := commonHead before after
    let b1 := before.drop h.length
    let a1 := after.drop h.length
    let t := commonLast b1 a1
    let b2 := b1.take (b1.length - t.length)
    let a2 := a1.take (a1.length - t.length)
    let middle : List Chunk :=
      if b2 = [] then [.Insert a2]
      else if a2 = [] then [.Delete b2]
      else [.Delete b2, .Insert a2]
    (if h = [] then [] else [.Equal h]) ++ middle ++
      (if t = [] then [] else [.Equal t])

/-- The `if let [Equal(diff) | Delete(diff)] = chunk_vec[..]` test of
`RenameRequest::print_diffs`: the pair is rendered dimmed with the
`(ignore)` tag exactly when its chunk list is a single `Equal` or a
single `Delete` chunk. -/
def isIgnoredChunks : List Chunk → Bool
  | [.Equal _] => true
  | [.Delete _] => true
  | _ => false

/-- The per-pair ignored flags produced by `RenameRequest::print_diffs`
over the zipped entry pairs, in order. -/
def RenameRequest.printDiffsIgnoredFlags (rr : RenameRequest) : List Bool :=
  (rr.origin.entries.zip rr.target.entries).map
    (fun p => isIgnoredChunks (diffChunks p.1.path p.2.path))

/-- Stated from the spec's words, for comparison with the parser: the
number of non-blank lines of the source (the count the spec asserts
`parse` retains). -/
def specNonBlankLineCount (src : List Char) : Nat :=
  ((rustLines src).filter (fun p => !(rustTrim p.2).isEmpty)).length

/-- Modelled from the spec: the plan-level `order_by_depth()` operation is
absent from `src` (only the single-list `FileList::sort_by_file_depth`
exists there).  Per the spec it delegates to
`origin.sort_by_descending_depth()` and applies the identical index
permutation to `target` so alignment is preserved: the stable-sort
permutation of the origin entries by the depth key is computed once and
mapped over both entry lists; neither buffer is touched. -/
def RenameRequest.orderByDepth (depth : List Char → Nat) (rr : RenameRequest) :
    RenameRequest :=
  let perm := (List.range rr.origin.entries.length).mergeSort (fun i j =>
    FileList.depthKey depth (rr.origin.entries.getD i ⟨0, []⟩) ≤
      FileList.depthKey depth (rr.origin.entries.getD j ⟨0, []⟩))
  ⟨⟨rr.origin.buffer, perm.map (fun i => rr.origin.entries.getD i ⟨0, []⟩)⟩,
   ⟨rr.target.buffer, perm.map (fun i => rr.target.entries.getD i ⟨0, []⟩)⟩⟩

/-! ## Helper lemmas -/

theorem dropWhile_dropWhile_self {p : Char → Bool} (l : List Char) :
    (l.dropWhile p).dropWhile p = l.dropWhile p := by
  induction l with
  | nil => rfl
  | cons c r ih =>
    by_cases h : p c
    · simp [List.dropWhile, h, ih]
    · simp [List.dropWhile, h]

theorem trimEnd_trimEnd (l : List Char) : trimEnd (trimEnd l) = trimEnd l := by
  unfold trimEnd
  rw [List.reverse_reverse, dropWhile_dropWhile_self]

theorem rustTrim_trimEnd (l : List Char) : rustTrim (trimEnd l) = rustTrim l := by
  unfold rustTrim
  rw [trimEnd_trimEnd]

theorem splitSegs_ne_nil (pos : Nat) (buf : List Char) : splitSegs pos buf ≠ [] := by
  cases buf with
  | nil => simp [splitSegs]
  | cons c rest =>
    by_cases hc : c = '\n'
    · simp [splitSegs, hc]
    · simp only [splitSegs, if_neg hc]
      cases splitSegs (pos + 1) rest with
      | nil => simp
      | cons a more => simp

theorem splitSegs_cons_newline (pos : Nat) (rest : List Char) :
    splitSegs pos ('\n' :: rest) = (pos, []) :: splitSegs (pos + 1) rest := by
  simp [splitSegs]

theorem splitSegs_cons_other (pos : Nat) (c : Char) (rest : List Char) (hc : c ≠ '\n')
    (q : Nat) (seg : List Char) (more : List (Nat × List Char))
    (hrec : splitSegs (pos + 1) rest = (q, seg) :: more) :
    splitSegs pos (c :: rest) = (pos, c :: seg) :: more := by
  simp [splitSegs, hc, hrec]

/-- The segments of `splitSegs`, joined back with newlines (in the shape
of the `as_string` fold), reconstruct the buffer plus one final newline. -/
theorem foldr_splitSegs (buf : List Char) : ∀ pos : Nat,
    ((splitSegs pos buf).map (fun p => p.2)).foldr
      (fun p acc => p ++ '\n' :: acc) [] = buf ++ ['\n'] := by
  induction buf with
  | nil => intro pos; simp [splitSegs]
  | cons c rest ih =>
    intro pos
    by_cases hc : c = '\n'
    · subst hc
      rw [splitSegs_cons_newline]
      simp only [List.map_cons, List.foldr_cons, List.nil_append, ih (pos + 1)]
      simp
    · obtain ⟨q, seg, more, hrec⟩ :
          ∃ q seg more, splitSegs (pos + 1) rest = (q, seg) :: more := by
        cases hx : splitSegs (pos + 1) rest with
        | nil => exact absurd hx (splitSegs_ne_nil _ _)
        | cons a l => exact ⟨a.1, a.2, l, rfl⟩
      rw [splitSegs_cons_other pos c rest hc q seg more hrec]
      have ihr := ih (pos + 1)
      rw [hrec] at ihr
      simp only [List.map_cons, List.foldr_cons] at ihr ⊢
      rw [List.cons_append, List.cons_append, ← ihr]

/-- The function `splitSegs` produces one more segment than the buffer has newlines. -/
theorem splitSegs_length (buf : List Char) : ∀ pos : Nat,
    (splitSegs pos buf).length = 1 + buf.count '\n' := by
  induction buf with
  | nil => intro pos; simp [splitSegs]
  | cons c rest ih =>
    intro pos
    by_cases hc : c = '\n'
    · subst hc
      rw [splitSegs_cons_newline]
      simp [ih (pos + 1), List.count_cons]
      omega
    · obtain ⟨q, seg, more, hrec⟩ :
          ∃ q seg more, splitSegs (pos + 1) rest = (q, seg) :: more := by
        cases hx : splitSegs (pos + 1) rest with
        | nil => exact absurd hx (splitSegs_ne_nil _ _)
        | cons a l => exact ⟨a.1, a.2, l, rfl⟩
      rw [splitSegs_cons_other pos c rest hc q seg more hrec]
      have ihr := ih (pos + 1)
      rw [hrec] at ihr
      simp only [List.length_cons] at ihr ⊢
      rw [List.count_cons]
      simp [hc, ihr]

/-- Every character of a segment of `splitSegs` is a character of the
buffer. -/
theorem splitSegs_subset (buf : List Char) : ∀ (pos : Nat) (p : Nat × List Char),
    p ∈ splitSegs pos buf → ∀ c ∈ p.2, c ∈ buf := by
  induction buf with
  | nil =>
    intro pos p hp c hcp
    have hp2 := List.mem_singleton.mp (by simpa [splitSegs] using hp)
    rw [hp2] at hcp
    simp at hcp
  | cons b rest ih =>
    intro pos p hp c hcp
    by_cases hb : b = '\n'
    · subst hb
      rw [splitSegs_cons_newline] at hp
      rcases List.mem_cons.mp hp with hp1 | hp1
      · rw [hp1] at hcp; simp at hcp
      · exact List.mem_cons_of_mem _ (ih (pos + 1) p hp1 c hcp)
    · obtain ⟨q, seg, more, hrec⟩ :
          ∃ q seg more, splitSegs (pos + 1) rest = (q, seg) :: more := by
        cases hx : splitSegs (pos + 1) rest with
        | nil => exact absurd hx (splitSegs_ne_nil _ _)
        | cons a l => exact ⟨a.1, a.2, l, rfl⟩
      rw [splitSegs_cons_other pos b rest hb q seg more hrec] at hp
      rcases List.mem_cons.mp hp with hp1 | hp1
      · rw [hp1] at hcp
        rcases List.mem_cons.mp hcp with h1 | h1
        · rw [h1]; exact List.mem_cons_self _ _
        · have := ih (pos + 1) (q, seg) (by rw [hrec]; exact List.mem_cons_self _ _) c h1
          exact List.mem_cons_of_mem _ this
      · have := ih (pos + 1) p
          (by rw [hrec]; exact List.mem_cons_of_mem _ hp1) c hcp
        exact List.mem_cons_of_mem _ this

/-- When the buffer neither is empty nor ends in a newline, the final
segment of `splitSegs` is non-empty. -/
theorem splitSegs_getLast_ne_nil (buf : List Char) : ∀ (pos : Nat) (p : Nat × List Char),
    buf ≠ [] → buf.getLast? ≠ some '\n' →
    (splitSegs pos buf).getLast? = some p → p.2 ≠ [] := by
  induction buf with
  | nil => intro pos p hne; exact absurd rfl hne
  | cons c rest ih =>
    intro pos p hne hlast hsegs
    cases rest with
    | nil =>
      have hc : c ≠ '\n' := by
        intro hc; apply hlast; rw [hc]; rfl
      rw [splitSegs_cons_other pos c [] hc (pos + 1) [] [] (by simp [splitSegs])] at hsegs
      have hp : (pos, [c]) = p := by simpa using hsegs
      rw [← hp]
      simp
    | cons d rest2 =>
      have hlast2 : (d :: rest2).getLast? ≠ some '\n' := by
        rw [← List.getLast?_cons_cons (a := c)]
        exact hlast
      obtain ⟨q, seg, more, hrec⟩ :
          ∃ q seg more, splitSegs (pos + 1) (d :: rest2) = (q, seg) :: more := by
        cases hx : splitSegs (pos + 1) (d :: rest2) with
        | nil => exact absurd hx (splitSegs_ne_nil _ _)
        | cons a l => exact ⟨a.1, a.2, l, rfl⟩
      by_cases hc : c = '\n'
      · subst hc
        rw [splitSegs_cons_newline, hrec, List.getLast?_cons_cons] at hsegs
        apply ih (pos + 1) p (by simp) hlast2
        rw [hrec]
        exact hsegs
      · rw [splitSegs_cons_other pos c (d :: rest2) hc q seg more hrec] at hsegs
        cases more with
        | nil =>
          have hp : (pos, c :: seg) = p := by simpa using hsegs
          rw [← hp]
          simp
        | cons m ms =>
          rw [List.getLast?_cons_cons] at hsegs
          apply ih (pos + 1) p (by simp) hlast2
          rw [hrec, List.getLast?_cons_cons]
          exact hsegs

/-- The first element surviving `dropWhile` fails the predicate. -/
theorem head_dropWhile_false {p : Char → Bool} : ∀ (l : List Char) (c : Char),
    (l.dropWhile p).head? = some c → p c = false := by
  intro l
  induction l with
  | nil => intro c h; simp [List.dropWhile] at h
  | cons a r ih =>
    intro c h
    by_cases ha : p a
    · rw [List.dropWhile_cons_of_pos ha] at h
      exact ih c h
    · rw [List.dropWhile_cons_of_neg ha] at h
      simp at h
      rw [← h]
      simpa using ha

/-- The last character of a trimmed buffer is not whitespace. -/
theorem trimEnd_getLast_not_white (l : List Char) (c : Char)
    (h : (trimEnd l).getLast? = some c) : isRustWhitespace c = false := by
  unfold trimEnd at h
  rw [List.getLast?_reverse] at h
  exact head_dropWhile_false _ c h

/-! ## C9: blank input is the warning-class `EmptyInput` condition -/

/-- C9: `parse` on a source that is empty or blank (empty after trimming)
fails with the `EmptyInput` condition — `EmptyStdIn` for `parse_reader`,
`EmptyDirectory` for `parse_walker` — whose diagnostic is a warning
rather than an error and whose completion status is the success exit
code 0. -/
theorem parse_empty_input_warning (input : List Char) (filenames : List (List Char)) :
    (rustTrim input = [] →
      FileList.parseReader input = .error (trimEnd input, .EmptyStdIn)) ∧
    (rustTrim ((filenames.intersperse ['\n']).flatten) = [] →
      FileList.parseWalker filenames =
        .error ((filenames.intersperse ['\n']).flatten, .EmptyDirectory)) ∧
    FLParseError.status .EmptyStdIn = some 0 ∧
    FLParseError.status .EmptyDirectory = some 0 ∧
    (FLParseError.report .EmptyStdIn).severity = .warning ∧
    (FLParseError.report .EmptyDirectory).severity = .warning := by
  refine ⟨?_, ?_, rfl, rfl, rfl, rfl⟩
  · intro h
    have h2 : rustTrim (trimEnd input) = [] := by rw [rustTrim_trimEnd, h]
    simp [FileList.parseReader, h2]
  · intro h
    simp [FileList.parseWalker, h]

/-- Witness for `parse_empty_input_warning` at a blank source and an
empty directory walk. -/
theorem parse_empty_input_warning_witness :
    FileList.parseReader (" \n\t".toList) = .error ([], .EmptyStdIn) ∧
    FileList.parseWalker [] = .error ([], .EmptyDirectory) := by
  have h := parse_empty_input_warning (" \n\t".toList) []
  refine ⟨?_, ?_⟩
  · have := h.1 (by decide)
    simpa using this
  · have := h.2.1 (by decide)
    simpa using this

/-! ## C7: the existence check aggregates every missing entry -/

/-- C7: `confirm_files_exist` succeeds exactly when every entry passes the
filesystem existence check, and on failure its `FileDoesNotExist` error
carries one `(missing-path byte range, message)` label for every failing
entry, in entry order — all failing entries, not only the first. -/
theorem confirmFilesExist_aggregates_all_missing (fsExists : List Char → Bool)
    (fl : FileList) :
    (FileList.confirmFilesExist fsExists fl = .ok fl ↔
      ∀ e ∈ fl.entries, fsExists e.path) ∧
    (¬(∀ e ∈ fl.entries, fsExists e.path) →
      FileList.confirmFilesExist fsExists fl =
        .error (fl.buffer, .FileDoesNotExist
          ((fl.entries.filter (fun e => !(fsExists e.path))).map
            (fun e => Label.mk (substringRange e) "File does not exist")))) := by
  by_cases h : ∀ e ∈ fl.entries, fsExists e.path
  · have hnil : fl.entries.filter (fun e => !(fsExists e.path)) = [] := by
      rw [List.filter_eq_nil_iff]
      intro e he
      simp [h e he]
    have hres : FileList.confirmFilesExist fsExists fl = .ok fl := by
      simp [FileList.confirmFilesExist, hnil]
    exact ⟨⟨fun _ => h, fun _ => hres⟩, fun habs => absurd h habs⟩
  · have hne : fl.entries.filter (fun e => !(fsExists e.path)) ≠ [] := by
      intro hnil
      rw [List.filter_eq_nil_iff] at hnil
      apply h
      intro e he
      have := hnil e he
      simpa using this
    have hres : FileList.confirmFilesExist fsExists fl =
        .error (fl.buffer, .FileDoesNotExist
          ((fl.entries.filter (fun e => !(fsExists e.path))).map
            (fun e => Label.mk (substringRange e) "File does not exist"))) := by
      unfold FileList.confirmFilesExist
      simp only [List.isEmpty_iff, List.map_eq_nil_iff]
      rw [if_neg hne]
    rw [hres]
    simp [h]

/-- Witness for `confirmFilesExist_aggregates_all_missing`: two of three
entries are missing and both are reported. -/
theorem confirmFilesExist_aggregates_all_missing_witness :
    FileList.confirmFilesExist (fun p => p == ['b'])
        (FileList.fromString ("a\nb\ncc".toList)) =
      .error ("a\nb\ncc".toList, .FileDoesNotExist
        [Label.mk (0, 1) "File does not exist",
         Label.mk (4, 6) "File does not exist"]) := by
  have h := (confirmFilesExist_aggregates_all_missing (fun p => p == ['b'])
    (FileList.fromString ("a\nb\ncc".toList))).2 (by decide)
  rw [h]
  decide

/-! ## C3: line-count mismatch diagnostics of `RenameRequest::new` -/

/-- C3: when `target` has fewer entries than `origin`, construction fails
with `TooFewLines` carrying the offset equal to the length of `target`'s
buffer; when `target` has more entries (and `origin` is non-empty, as
every parsed list is), it fails with `TooManyLines` spanning from just
after `target`'s entry at index `origin.len() - 1` to the end of
`target`'s buffer. -/
theorem renameRequest_new_line_count_diagnostics (origin target : FileList) :
    (target.entries.length < origin.entries.length →
      RenameRequest.new origin target =
        .error (target.buffer, .TooFewLines target.buffer.length)) ∧
    (0 < origin.entries.length → origin.entries.length < target.entries.length →
      ∃ e, target.entries[origin.entries.length - 1]? = some e ∧
        RenameRequest.new origin target =
          .error (target.buffer,
            .TooManyLines ((substringRange e).2 + 1, target.buffer.length))) := by
  constructor
  · intro h
    have hc : compare target.entries.length origin.entries.length = .lt :=
      Nat.compare_eq_lt.mpr h
    simp [RenameRequest.new, hc]
  · intro h0 h
    have hc : compare target.entries.length origin.entries.length = .gt :=
      Nat.compare_eq_gt.mpr h
    have hlt : origin.entries.length - 1 < target.entries.length := by omega
    refine ⟨target.entries[origin.entries.length - 1], List.getElem?_eq_getElem hlt, ?_⟩
    simp [RenameRequest.new, hc, List.getD_eq_getElem?_getD,
      List.getElem?_eq_getElem hlt]

/-- Witness for `renameRequest_new_line_count_diagnostics`, exercising
both the missing-line and the extra-line branch. -/
theorem renameRequest_new_line_count_diagnostics_witness :
    RenameRequest.new (FileList.fromString ("a\nbb\ncc".toList))
        (FileList.fromString ("a\nbb".toList)) =
      .error ("a\nbb".toList, .TooFewLines 4) ∧
    RenameRequest.new (FileList.fromString ("a\nbb".toList))
        (FileList.fromString ("a\nbb\ncc".toList)) =
      .error ("a\nbb\ncc".toList, .TooManyLines (5, 7)) := by
  constructor
  · exact (renameRequest_new_line_count_diagnostics
      (FileList.fromString ("a\nbb\ncc".toList))
      (FileList.fromString ("a\nbb".toList))).1 (by decide)
  · obtain ⟨e, he, hres⟩ := (renameRequest_new_line_count_diagnostics
      (FileList.fromString ("a\nbb".toList))
      (FileList.fromString ("a\nbb\ncc".toList))).2 (by decide) (by decide)
    have hv : (FileList.fromString ("a\nbb\ncc".toList)).entries[
        (FileList.fromString ("a\nbb".toList)).entries.length - 1]? =
        some (Entry.mk 2 ['b', 'b']) := by decide
    rw [hv] at he
    injection he with he2
    rw [← he2] at hres
    rw [hres]
    decide

/-! ## C4: unchanged lists are a successful no-op -/

/-- C4: when entry counts match and every `target` entry equals its
`origin` entry at the same index, construction fails with
`FileUnchanged`, whose diagnostic severity is a note (not an error) and
whose completion status is the success exit code 0; no `RenameRequest`
value exists, so no rename can be performed. -/
theorem renameRequest_new_unchanged_noop (origin target : FileList)
    (hlen : origin.entries.length = target.entries.length)
    (heq : ∀ (i : Nat) (h1 : i < origin.entries.length)
      (h2 : i < target.entries.length),
      (origin.entries[i]).path = (target.entries[i]).path) :
    RenameRequest.new origin target = .error (target.buffer, .FileUnchanged) ∧
    RRParseError.status .FileUnchanged = some 0 ∧
    (RRParseError.report .FileUnchanged).severity = .note := by
  refine ⟨?_, rfl, rfl⟩
  have hc : compare target.entries.length origin.entries.length = .eq :=
    Nat.compare_eq_eq.mpr hlen.symm
  have hall : (origin.entries.zip target.entries).all
      (fun p => p.1.path == p.2.path) = true := by
    rw [List.all_eq_true]
    intro p hp
    obtain ⟨i, hi, hget⟩ := List.getElem_of_mem hp
    rw [List.getElem_zip] at hget
    have h1 : i < origin.entries.length := by
      have := hi
      simp [List.length_zip] at this
      omega
    have h2 : i < target.entries.length := by omega
    have := heq i h1 h2
    rw [← hget]
    simpa using this
  simp [RenameRequest.new, hc, hall]

/-- Witness for `renameRequest_new_unchanged_noop` on an unedited
two-line list. -/
theorem renameRequest_new_unchanged_noop_witness :
    RenameRequest.new (FileList.fromString ("a\nbb".toList))
        (FileList.fromString ("a\nbb".toList)) =
      .error ("a\nbb".toList, .FileUnchanged) := by
  exact (renameRequest_new_unchanged_noop
    (FileList.fromString ("a\nbb".toList))
    (FileList.fromString ("a\nbb".toList)) (by decide)
    (by decide)).1


theorem stripTrailingCR_of_no_cr (s : List Char) (h : '\r' ∉ s) :
    stripTrailingCR s = s := by
  unfold stripTrailingCR
  cases hgl : s.getLast? with
  | none => rfl
  | some c =>
    have hc : c ≠ '\r' := by
      intro hc
      rw [hc] at hgl
      exact h (List.mem_of_getLast?_eq_some hgl)
    simp [hc]

theorem map_stripTrailingCR_id (segs : List (Nat × List Char))
    (h : ∀ p ∈ segs, '\r' ∉ p.2) :
    segs.map (fun p => (p.1, stripTrailingCR p.2)) = segs := by
  induction segs with
  | nil => rfl
  | cons a l ih =>
    simp only [List.map_cons]
    rw [stripTrailingCR_of_no_cr a.2 (h a (List.mem_cons_self _ _)),
      ih (fun p hp => h p (List.mem_cons_of_mem _ hp))]

theorem dropTrailingEmptySeg_of_getLast_ne (segs : List (Nat × List Char))
    (h : ∀ p, segs.getLast? = some p → p.2 ≠ []) :
    dropTrailingEmptySeg segs = segs := by
  unfold dropTrailingEmptySeg
  cases hgl : segs.getLast? with
  | none => rfl
  | some p =>
    obtain ⟨p1, p2⟩ := p
    cases p2 with
    | nil => exact absurd rfl (h (p1, []) hgl)
    | cons c cs => rfl

/-- On a buffer that is non-empty, carriage-return-free and not
newline-terminated, the `lines` view keeps every raw segment. -/
theorem rustLines_eq_splitSegs (buf : List Char) (hb : buf ≠ [])
    (hcr : '\r' ∉ buf) (hnl : buf.getLast? ≠ some '\n') :
    rustLines buf = splitSegs 0 buf := by
  unfold rustLines
  rw [dropTrailingEmptySeg_of_getLast_ne _
    (fun p hp => splitSegs_getLast_ne_nil buf 0 p hb hnl hp)]
  exact map_stripTrailingCR_id _
    (fun p hp hcp => hcr (splitSegs_subset buf 0 p hp '\r' hcp))

/-! ## C5 (corrected): interior blank lines are retained, not discarded -/

/-- Counterexample to C5 as stated: on the source `a\n\nb` the parser
produces three entries (the interior blank line becomes an empty path
entry), while the source has only two non-blank lines. -/
theorem parse_blank_lines_counterexample :
    (FileList.parseReader ("a\n\nb".toList)).map (fun fl => fl.entries.length) =
      .ok 3 ∧
    specNonBlankLineCount ("a\n\nb".toList) = 2 ∧ (3 : Nat) ≠ 2 := by decide

/-- C5 as amended: `parse` keeps every line of the source after trailing
whitespace is trimmed — interior purely-empty lines are retained as empty
entries, only the trailing blank tail is discarded — so the entry count is
one more than the newline count of the trimmed source, and the entries
are the trimmed source's lines in original order. -/
theorem parse_retains_interior_blank_lines (src : List Char) (fl : FileList)
    (h : FileList.parseReader src = .ok fl) :
    fl.entries.map (fun e => e.path) =
      (splitSegs 0 (trimEnd src)).map (fun p => stripTrailingCR p.2) ∧
    fl.entries.length = 1 + (trimEnd src).count '\n' := by
  by_cases hcond : (rustTrim (trimEnd src)).isEmpty
  · simp [FileList.parseReader, hcond] at h
  · have hfl : fl = FileList.fromString (trimEnd src) := by
      simp [FileList.parseReader, hcond] at h
      exact h.symm
    subst hfl
    have hne : trimEnd src ≠ [] := by
      intro hnil
      rw [hnil] at hcond
      exact hcond rfl
    have hnl : (trimEnd src).getLast? ≠ some '\n' := by
      intro hgl
      have := trimEnd_getLast_not_white src '\n' hgl
      simp [isRustWhitespace] at this
    have hdrop : dropTrailingEmptySeg (splitSegs 0 (trimEnd src)) =
        splitSegs 0 (trimEnd src) :=
      dropTrailingEmptySeg_of_getLast_ne _
        (fun p hp => splitSegs_getLast_ne_nil (trimEnd src) 0 p hne hnl hp)
    constructor
    · unfold FileList.fromString rustLines
      rw [List.map_map, hdrop, List.map_map]
      rfl
    · unfold FileList.fromString rustLines
      simp only [List.length_map]
      rw [hdrop, splitSegs_length (trimEnd src) 0]

/-- Witness for `parse_retains_interior_blank_lines` on the source
`a\n\nb`. -/
theorem parse_retains_interior_blank_lines_witness :
    (FileList.fromString ("a\n\nb".toList)).entries.map (fun e => e.path) =
      (splitSegs 0 (trimEnd ("a\n\nb".toList))).map (fun p => stripTrailingCR p.2) ∧
    (FileList.fromString ("a\n\nb".toList)).entries.length =
      1 + (trimEnd ("a\n\nb".toList)).count '\n' :=
  parse_retains_interior_blank_lines ("a\n\nb".toList)
    (FileList.fromString ("a\n\nb".toList)) (by decide)

/-! ## C6 (corrected): `as_string` re-serializes, `as_ref` is the buffer -/

/-- Counterexample to C6 as stated: `as_string` does not return the
backing buffer — it rebuilds the text from the entries, so a CRLF line
ending is lost, and after a reordering the text follows the new entry
order rather than the parse-time buffer. -/
theorem asString_not_backing_buffer_counterexample :
    FileList.asString (FileList.fromString ("a\r\nb".toList)) ≠
      (FileList.fromString ("a\r\nb".toList)).buffer ∧
    FileList.asString (FileList.sortByFileDepth (fun p => p.length)
        (FileList.fromString ("a\nbc".toList))) ≠
      (FileList.fromString ("a\nbc".toList)).buffer := by
  refine ⟨by decide, ?_⟩
  have h1 : FileList.fromString ("a\nbc".toList) =
      FileList.mk ("a\nbc".toList) [Entry.mk 0 ['a'], Entry.mk 2 ['b', 'c']] := by
    decide
  rw [h1]
  have h2 : FileList.sortByFileDepth (fun p => p.length)
      (FileList.mk ("a\nbc".toList) [Entry.mk 0 ['a'], Entry.mk 2 ['b', 'c']]) =
      FileList.mk ("a\nbc".toList) [Entry.mk 2 ['b', 'c'], Entry.mk 0 ['a']] := by
    simp [FileList.sortByFileDepth, List.mergeSort, List.merge,
      FileList.depthKey, FileList.USIZEMAX]
  rw [h2]
  decide

/-- C6 as amended: the `AsRef<str>` view returns exactly the backing
buffer obtained at parse time, byte-identical, including after any
reordering (the sort never touches the buffer); `as_string` instead
serializes the entries in their current order joined by single newlines,
and coincides with the backing buffer in the unreordered case whenever
the buffer contains no carriage return and does not end in a newline
(the parsers trim a trailing newline, but an interior CRLF line ending
survives parsing, as the counterexample shows). -/
theorem asRef_buffer_asString_serializes_amended (fl : FileList)
    (d : List Char → Nat) (buf : List Char) :
    FileList.asRefStr fl = fl.buffer ∧
    FileList.asRefStr (FileList.sortByFileDepth d fl) = fl.buffer ∧
    ('\r' ∉ buf → buf.getLast? ≠ some '\n' →
      FileList.asString (FileList.fromString buf) = buf) := by
  refine ⟨rfl, rfl, ?_⟩
  intro hcr hnl
  by_cases hb : buf = []
  · subst hb; decide
  · have hrl := rustLines_eq_splitSegs buf hb hcr hnl
    have hentries : (FileList.fromString buf).entries.map (fun e => e.path) =
        (splitSegs 0 buf).map (fun p => p.2) := by
      unfold FileList.fromString
      rw [List.map_map, hrl]
      rfl
    unfold FileList.asString
    rw [hentries, foldr_splitSegs buf 0, List.dropLast_concat]

/-- Witness for `asRef_buffer_asString_serializes_amended` on a concrete
list and buffer. -/
theorem asRef_buffer_asString_serializes_amended_witness :
    FileList.asRefStr (FileList.fromString ("a\nbc".toList)) =
      (FileList.fromString ("a\nbc".toList)).buffer ∧
    FileList.asRefStr (FileList.sortByFileDepth (fun p => p.length)
        (FileList.fromString ("a\nbc".toList))) =
      (FileList.fromString ("a\nbc".toList)).buffer ∧
    FileList.asString (FileList.fromString ("a\nbc".toList)) = "a\nbc".toList :=
  ⟨(asRef_buffer_asString_serializes_amended (FileList.fromString ("a\nbc".toList))
      (fun p => p.length) ("a\nbc".toList)).1,
   (asRef_buffer_asString_serializes_amended (FileList.fromString ("a\nbc".toList))
      (fun p => p.length) ("a\nbc".toList)).2.1,
   (asRef_buffer_asString_serializes_amended (FileList.fromString ("a\nbc".toList))
      (fun p => p.length) ("a\nbc".toList)).2.2 (by decide) (by decide)⟩

/-! ## C10: the ignored flag of the diff preview -/

theorem commonHead_nil_right (l : List Char) : commonHead l [] = [] := by
  cases l <;> rfl

theorem commonLast_nil_right (l : List Char) : commonLast l [] = [] := by
  unfold commonLast
  rw [List.reverse_nil, commonHead_nil_right, List.reverse_nil]

/-- Deleting the whole origin line (empty target) diffs to a single
`Delete` chunk. -/
theorem diffChunks_empty_after (b : List Char) (hb : b ≠ []) :
    diffChunks b [] = [Chunk.Delete b] := by
  unfold diffChunks
  rw [if_neg hb]
  simp [commonHead_nil_right, commonLast_nil_right, hb]

/-- The `print_diffs` ignored test holds exactly on singleton `Equal` or
singleton `Delete` chunk lists. -/
theorem isIgnoredChunks_iff (cs : List Chunk) :
    isIgnoredChunks cs = true ↔
      ∃ s, cs = [Chunk.Equal s] ∨ cs = [Chunk.Delete s] := by
  cases cs with
  | nil => simp [isIgnoredChunks]
  | cons c rest =>
    cases rest with
    | nil =>
      cases c with
      | Equal s => simp [isIgnoredChunks]
      | Delete s => simp [isIgnoredChunks]
      | Insert s => simp [isIgnoredChunks]
    | cons d ds =>
      cases c <;> simp [isIgnoredChunks]

/-- Under a step function that always succeeds, every pair is attempted. -/
theorem renameGo_attempts_all {Fs : Type}
    (step : Fs → List Char → List Char → Except String Fs)
    (hall : ∀ (g : Fs) (b a : List Char), ∃ g2, step g b a = .ok g2) :
    ∀ (pairs : List (Entry × Entry)) (fs : Fs),
      (RenameRequest.renameGo step fs pairs).1 = pairs := by
  intro pairs
  induction pairs with
  | nil => intro fs; rfl
  | cons p rest ih =>
    intro fs
    obtain ⟨b, a⟩ := p
    obtain ⟨g2, hg⟩ := hall fs b.path a.path
    simp only [RenameRequest.renameGo, hg]
    rw [ih g2]

/-- C10: in the diff preview an aligned pair is flagged ignored exactly
when its chunk list is a single `Equal` or a single `Delete` chunk; in
particular a pair whose target line is empty (origin entirely deleted in
the edit) is flagged ignored; yet `rename` still processes every aligned
pair — under a step function that always succeeds the attempted sequence
is the full zipped pair list, ignored pairs included. -/
theorem printDiffs_ignored_flag_semantics {Fs : Type}
    (step : Fs → List Char → List Char → Except String Fs) (fs : Fs)
    (rr : RenameRequest) (i : Nat) (o t : Entry)
    (hp : (rr.origin.entries.zip rr.target.entries)[i]? = some (o, t))
    (hall : ∀ (g : Fs) (b a : List Char), ∃ g2, step g b a = .ok g2) :
    rr.printDiffsIgnoredFlags[i]? =
      some (isIgnoredChunks (diffChunks o.path t.path)) ∧
    (isIgnoredChunks (diffChunks o.path t.path) = true ↔
      ∃ s, diffChunks o.path t.path = [Chunk.Equal s] ∨
        diffChunks o.path t.path = [Chunk.Delete s]) ∧
    (t.path = [] → o.path ≠ [] →
      isIgnoredChunks (diffChunks o.path t.path) = true) ∧
    (RenameRequest.rename step fs rr).1 =
      rr.origin.entries.zip rr.target.entries := by
  refine ⟨?_, isIgnoredChunks_iff _, ?_, ?_⟩
  · unfold RenameRequest.printDiffsIgnoredFlags
    rw [List.getElem?_map, hp]
    rfl
  · intro ht ho
    rw [ht, diffChunks_empty_after o.path ho]
    rfl
  · exact renameGo_attempts_all step hall _ fs

/-- Witness for `printDiffs_ignored_flag_semantics`: pair 1 of the lists
parsed from `a\nb\nc` and `z\n\nw` has an empty target line, is
flagged ignored, and is still attempted by `rename`. -/
theorem printDiffs_ignored_flag_semantics_witness :
    (RenameRequest.mk (FileList.fromString ("a\nb\nc".toList))
        (FileList.fromString ("z\n\nw".toList))).printDiffsIgnoredFlags[(1 : Nat)]? =
      some (isIgnoredChunks (diffChunks ['b'] [])) ∧
    isIgnoredChunks (diffChunks ['b'] []) = true ∧
    (RenameRequest.rename (fun (g : Unit) _ _ => Except.ok g) ()
        (RenameRequest.mk (FileList.fromString ("a\nb\nc".toList))
          (FileList.fromString ("z\n\nw".toList)))).1 =
      (FileList.fromString ("a\nb\nc".toList)).entries.zip
        (FileList.fromString ("z\n\nw".toList)).entries := by
  have h := printDiffs_ignored_flag_semantics (fun (g : Unit) _ _ => Except.ok g) ()
    (RenameRequest.mk (FileList.fromString ("a\nb\nc".toList))
      (FileList.fromString ("z\n\nw".toList)))
    1 (Entry.mk 2 ['b']) (Entry.mk 2 []) (by decide) (fun g b a => ⟨g, rfl⟩)
  exact ⟨h.1, h.2.2.1 rfl (by decide), h.2.2.2⟩

/-! ## C2: first-failure semantics of `rename` -/

theorem renameGo_ok_attempts_all {Fs : Type}
    (step : Fs → List Char → List Char → Except String Fs) :
    ∀ (pairs : List (Entry × Entry)) (fs fs1 : Fs),
      (RenameRequest.renameGo step fs pairs).2 = .ok fs1 →
      (RenameRequest.renameGo step fs pairs).1 = pairs := by
  intro pairs
  induction pairs with
  | nil => intro fs fs1 _; rfl
  | cons q rest ih =>
    intro fs fs1 h
    obtain ⟨b, a⟩ := q
    cases hstep : step fs b.path a.path with
    | error msg => simp [RenameRequest.renameGo, hstep] at h
    | ok fs2 =>
      simp only [RenameRequest.renameGo, hstep] at h ⊢
      simp only [List.cons.injEq, true_and]
      exact ih fs2 fs1 h

theorem renameGo_error_first_failure {Fs : Type}
    (step : Fs → List Char → List Char → Except String Fs) :
    ∀ (pairs : List (Entry × Entry)) (fs : Fs) (e : CannotRenameFile),
      (RenameRequest.renameGo step fs pairs).2 = .error e →
      ∃ k, k < pairs.length ∧
        (RenameRequest.renameGo step fs pairs).1 = pairs.take (k + 1) ∧
        ∃ p, pairs[k]? = some p ∧ e.pair = (p.1.path, p.2.path) ∧
          ∃ fsk, (RenameRequest.renameGo step fs (pairs.take k)).2 = .ok fsk ∧
            step fsk p.1.path p.2.path = .error e.osError := by
  intro pairs
  induction pairs with
  | nil => intro fs e h; simp [RenameRequest.renameGo] at h
  | cons q rest ih =>
    intro fs e h
    obtain ⟨b, a⟩ := q
    cases hstep : step fs b.path a.path with
    | error msg =>
      have he : CannotRenameFile.mk (b.path, a.path) msg = e := by
        simpa [RenameRequest.renameGo, hstep] using h
      subst he
      refine ⟨0, by simp, by simp [RenameRequest.renameGo, hstep],
        (b, a), by simp, rfl, fs, rfl, hstep⟩
    | ok fs1 =>
      have h2 : (RenameRequest.renameGo step fs1 rest).2 = .error e := by
        simpa [RenameRequest.renameGo, hstep] using h
      obtain ⟨k, hk, htr, p, hp, hep, fsk, hpre, hfail⟩ := ih fs1 e h2
      refine ⟨k + 1, by simpa using Nat.succ_lt_succ hk, ?_, p,
        by simpa using hp, hep, fsk, ?_, hfail⟩
      · simp only [RenameRequest.renameGo, hstep, List.take_succ_cons]
        simp only [List.cons.injEq, true_and]
        exact htr
      · rw [List.take_succ_cons]
        simp only [RenameRequest.renameGo, hstep]
        exact hpre

theorem renameGo_ok_iff {Fs : Type}
    (step : Fs → List Char → List Char → Except String Fs) :
    ∀ (pairs : List (Entry × Entry)) (fs : Fs),
      (∃ fs1, (RenameRequest.renameGo step fs pairs).2 = .ok fs1) ↔
      (∀ (k : Nat) (p : Entry × Entry), pairs[k]? = some p →
        ∃ fsk fsk1, (RenameRequest.renameGo step fs (pairs.take k)).2 = .ok fsk ∧
          step fsk p.1.path p.2.path = .ok fsk1) := by
  intro pairs
  induction pairs with
  | nil =>
    intro fs
    constructor
    · intro _ k p hk; simp at hk
    · intro _; exact ⟨fs, rfl⟩
  | cons q rest ih =>
    intro fs
    obtain ⟨b, a⟩ := q
    cases hstep : step fs b.path a.path with
    | error msg =>
      constructor
      · intro h1
        obtain ⟨fs1, h1⟩ := h1
        simp [RenameRequest.renameGo, hstep] at h1
      · intro hr
        obtain ⟨fsk, fsk1, hk, hs⟩ := hr 0 (b, a) (by simp)
        have hfs : fs = fsk := by simpa [RenameRequest.renameGo] using hk
        rw [← hfs, hstep] at hs
        exact absurd hs (by simp)
    | ok fs1 =>
      have hred : (RenameRequest.renameGo step fs ((b, a) :: rest)).2 =
          (RenameRequest.renameGo step fs1 rest).2 := by
        simp [RenameRequest.renameGo, hstep]
      constructor
      · intro h2
        obtain ⟨fs2, h2⟩ := h2
        rw [hred] at h2
        intro k p hk
        cases k with
        | zero =>
          simp only [List.getElem?_cons_zero, Option.some.injEq] at hk
          subst hk
          exact ⟨fs, fs1, rfl, hstep⟩
        | succ k2 =>
          have hk2 : rest[k2]? = some p := by simpa using hk
          obtain ⟨fsk, fsk1, hka, hkb⟩ := (ih fs1).mp ⟨fs2, h2⟩ k2 p hk2
          refine ⟨fsk, fsk1, ?_, hkb⟩
          rw [List.take_succ_cons]
          simp only [RenameRequest.renameGo, hstep]
          exact hka
      · intro hr
        rw [show (∃ fs2, (RenameRequest.renameGo step fs ((b, a) :: rest)).2 = .ok fs2) ↔
            (∃ fs2, (RenameRequest.renameGo step fs1 rest).2 = .ok fs2) from by rw [hred]]
        apply (ih fs1).mpr
        intro k p hk
        obtain ⟨fsk, fsk1, hka, hkb⟩ := hr (k + 1) p (by simpa using hk)
        rw [List.take_succ_cons] at hka
        simp only [RenameRequest.renameGo, hstep] at hka
        exact ⟨fsk, fsk1, hka, hkb⟩

/-- C2: `rename` walks the aligned pairs strictly in current entry order.
It returns success exactly when every pair renames without error (each in
the filesystem state left by its predecessors); on failure there is a
first failing index `k`: the pairs attempted are precisely the first
`k + 1` (no later pair is attempted), the first `k` renames remain
committed (the prefix run reaches state `fsk`, which is not rolled back),
and the error names exactly the failing `(origin, target)` pair together
with the underlying OS error text. -/
theorem rename_first_failure_semantics {Fs : Type}
    (step : Fs → List Char → List Char → Except String Fs) (fs : Fs)
    (rr : RenameRequest) :
    (∀ fs1, (RenameRequest.rename step fs rr).2 = .ok fs1 →
      (RenameRequest.rename step fs rr).1 =
        rr.origin.entries.zip rr.target.entries) ∧
    (∀ e, (RenameRequest.rename step fs rr).2 = .error e →
      ∃ k, k < (rr.origin.entries.zip rr.target.entries).length ∧
        (RenameRequest.rename step fs rr).1 =
          (rr.origin.entries.zip rr.target.entries).take (k + 1) ∧
        ∃ p, (rr.origin.entries.zip rr.target.entries)[k]? = some p ∧
          e.pair = (p.1.path, p.2.path) ∧
          ∃ fsk, (RenameRequest.renameGo step fs
              ((rr.origin.entries.zip rr.target.entries).take k)).2 = .ok fsk ∧
            step fsk p.1.path p.2.path = .error e.osError) ∧
    ((∃ fs1, (RenameRequest.rename step fs rr).2 = .ok fs1) ↔
      (∀ (k : Nat) (p : Entry × Entry),
        (rr.origin.entries.zip rr.target.entries)[k]? = some p →
        ∃ fsk fsk1, (RenameRequest.renameGo step fs
            ((rr.origin.entries.zip rr.target.entries).take k)).2 = .ok fsk ∧
          step fsk p.1.path p.2.path = .ok fsk1)) :=
  ⟨fun fs1 h => renameGo_ok_attempts_all step _ fs fs1 h,
   fun e h => renameGo_error_first_failure step _ fs e h,
   renameGo_ok_iff step _ fs⟩

/-- Witness for `rename_first_failure_semantics`: with three aligned
pairs and a step function that fails on the second origin path, the
attempted sequence is exactly the first two pairs and the error names the
second pair with the OS error text; with an always-succeeding step the
attempted sequence is all three pairs. -/
theorem rename_first_failure_semantics_witness :
    (RenameRequest.rename (fun (g : Unit) _ _ => Except.ok g) ()
        (RenameRequest.mk (FileList.fromString ("a\nb\nc".toList))
          (FileList.fromString ("x\ny\nz".toList)))).1 =
      (FileList.fromString ("a\nb\nc".toList)).entries.zip
        (FileList.fromString ("x\ny\nz".toList)).entries ∧
    (∃ k, k < 3 ∧
      (RenameRequest.rename
          (fun (g : Unit) (b : List Char) _ =>
            if b = ['b'] then Except.error ("File exists") else Except.ok g) ()
          (RenameRequest.mk (FileList.fromString ("a\nb\nc".toList))
            (FileList.fromString ("x\ny\nz".toList)))).1 =
        ((FileList.fromString ("a\nb\nc".toList)).entries.zip
          (FileList.fromString ("x\ny\nz".toList)).entries).take (k + 1) ∧
      ∃ p, ((FileList.fromString ("a\nb\nc".toList)).entries.zip
          (FileList.fromString ("x\ny\nz".toList)).entries)[k]? = some p ∧
        (CannotRenameFile.mk (['b'], ['y']) "File exists").pair =
          (p.1.path, p.2.path) ∧
        ∃ fsk, (RenameRequest.renameGo
            (fun (g : Unit) (b : List Char) _ =>
              if b = ['b'] then Except.error ("File exists") else Except.ok g) ()
            (((FileList.fromString ("a\nb\nc".toList)).entries.zip
              (FileList.fromString ("x\ny\nz".toList)).entries).take k)).2 =
          .ok fsk ∧
          (fun (g : Unit) (b : List Char) _ =>
            if b = ['b'] then Except.error ("File exists") else Except.ok g) fsk
            p.1.path p.2.path =
          .error (CannotRenameFile.mk (['b'], ['y']) "File exists").osError) := by
  constructor
  · exact (rename_first_failure_semantics (fun (g : Unit) _ _ => Except.ok g) ()
      (RenameRequest.mk (FileList.fromString ("a\nb\nc".toList))
        (FileList.fromString ("x\ny\nz".toList)))).1 () (by decide)
  · exact (rename_first_failure_semantics
      (fun (g : Unit) (b : List Char) _ =>
        if b = ['b'] then Except.error ("File exists") else Except.ok g) ()
      (RenameRequest.mk (FileList.fromString ("a\nb\nc".toList))
        (FileList.fromString ("x\ny\nz".toList)))).2.1
      (CannotRenameFile.mk (['b'], ['y']) "File exists") (by decide)

/-! ## C8: `sort_by_file_depth` reorders entries only -/

/-- C8: `sort_by_file_depth` leaves the backing buffer untouched; the new
entry sequence is a permutation of the old one; whenever every canonical
depth fits in `usize` (always true of real component counts) the result
is ordered by decreasing canonical depth; and entries of equal depth keep
their previous relative order (stability of `sort_by_key`). -/
theorem sortByFileDepth_frame_perm_order (depth : List Char → Nat) (fl : FileList) :
    (FileList.sortByFileDepth depth fl).buffer = fl.buffer ∧
    (FileList.sortByFileDepth depth fl).entries.Perm fl.entries ∧
    ((∀ e ∈ fl.entries, depth e.path ≤ FileList.USIZEMAX) →
      (FileList.sortByFileDepth depth fl).entries.Pairwise
        (fun a b => depth b.path ≤ depth a.path)) ∧
    (∀ a b : Entry, depth a.path = depth b.path →
      List.Sublist [a, b] fl.entries →
      List.Sublist [a, b] (FileList.sortByFileDepth depth fl).entries) := by
  have htrans : ∀ a b c : Entry,
      (FileList.depthKey depth a ≤ FileList.depthKey depth b : Bool) →
      (FileList.depthKey depth b ≤ FileList.depthKey depth c : Bool) →
      (FileList.depthKey depth a ≤ FileList.depthKey depth c : Bool) := by
    intro a b c hab hbc
    simp only [decide_eq_true_eq] at hab hbc ⊢
    omega
  have htotal : ∀ a b : Entry,
      ((FileList.depthKey depth a ≤ FileList.depthKey depth b : Bool) ||
       (FileList.depthKey depth b ≤ FileList.depthKey depth a : Bool)) := by
    intro a b
    simp only [Bool.or_eq_true, decide_eq_true_eq]
    omega
  refine ⟨rfl, List.mergeSort_perm fl.entries _, ?_, ?_⟩
  · intro hbound
    have hsorted := List.sorted_mergeSort htrans htotal fl.entries
    apply List.Pairwise.imp_of_mem ?_ hsorted
    intro a b ha hb hle
    have ha2 : a ∈ fl.entries := List.mem_mergeSort.mp ha
    have hb2 : b ∈ fl.entries := List.mem_mergeSort.mp hb
    have hba := hbound a ha2
    have hbb := hbound b hb2
    simp only [decide_eq_true_eq, FileList.depthKey] at hle
    have hmax : FileList.USIZEMAX = 18446744073709551615 := by
      norm_num [FileList.USIZEMAX]
    rw [hmax] at hle hba hbb
    omega
  · intro a b hdeq hsub
    apply List.pair_sublist_mergeSort htrans htotal ?_ hsub
    simp [FileList.depthKey, hdeq]

/-- Witness for `sortByFileDepth_frame_perm_order` on a three-entry list
(depths 1, 2, 1 under the length environment): the buffer survives, the
entries are permuted into decreasing depth, and the two depth-1 entries
keep their relative order. -/
theorem sortByFileDepth_frame_perm_order_witness :
    (FileList.sortByFileDepth (fun p => p.length)
      (FileList.fromString ("a\nbb\nc".toList))).buffer =
      (FileList.fromString ("a\nbb\nc".toList)).buffer ∧
    (FileList.sortByFileDepth (fun p => p.length)
      (FileList.fromString ("a\nbb\nc".toList))).entries.Perm
      (FileList.fromString ("a\nbb\nc".toList)).entries ∧
    (FileList.sortByFileDepth (fun p => p.length)
      (FileList.fromString ("a\nbb\nc".toList))).entries.Pairwise
      (fun a b => b.path.length ≤ a.path.length) ∧
    List.Sublist [Entry.mk 0 ['a'], Entry.mk 5 ['c']]
      (FileList.sortByFileDepth (fun p => p.length)
        (FileList.fromString ("a\nbb\nc".toList))).entries := by
  have h := sortByFileDepth_frame_perm_order (fun p => p.length)
    (FileList.fromString ("a\nbb\nc".toList))
  refine ⟨h.1, h.2.1, h.2.2.1 (by decide), ?_⟩
  apply h.2.2.2 (Entry.mk 0 ['a']) (Entry.mk 5 ['c']) (by decide)
  decide

/-! ## C1: `order_by_depth` applies one permutation to both lists -/

theorem range_map_getD_zip (l1 l2 : List Entry) (hlen : l2.length = l1.length) :
    (List.range l1.length).map
      (fun i => (l1.getD i ⟨0, []⟩, l2.getD i ⟨0, []⟩)) = l1.zip l2 := by
  apply List.ext_getElem?
  intro i
  rw [List.getElem?_map]
  by_cases hi : i < l1.length
  · have hi2 : i < l2.length := by omega
    have h1 : l1[i]? = some (l1.getD i ⟨0, []⟩) := by
      rw [List.getElem?_eq_getElem hi]
      rw [List.getD_eq_getElem?_getD, List.getElem?_eq_getElem hi]
      rfl
    have h2 : l2[i]? = some (l2.getD i ⟨0, []⟩) := by
      rw [List.getElem?_eq_getElem hi2]
      rw [List.getD_eq_getElem?_getD, List.getElem?_eq_getElem hi2]
      rfl
    rw [List.getElem?_range hi]
    exact (List.getElem?_zip_eq_some.mpr ⟨h1, h2⟩).symm
  · rw [List.getElem?_eq_none (by simpa using hi), List.getElem?_eq_none]
    · rfl
    · rw [List.length_zip, hlen]
      omega

/-- C1: the spec-modelled `order_by_depth` computes one stable-sort
permutation from the origin depths and applies it to both entry lists, so
the aligned pairs after ordering are a permutation of the aligned pairs
before ordering: alignment is preserved, and every post-ordering pair
`(origin[i], target[i])` is a pair that existed before. -/
theorem orderByDepth_alignment (depth : List Char → Nat) (rr : RenameRequest)
    (hlen : rr.target.entries.length = rr.origin.entries.length) :
    (rr.orderByDepth depth).origin.entries.length = rr.origin.entries.length ∧
    (rr.orderByDepth depth).target.entries.length = rr.target.entries.length ∧
    ((rr.orderByDepth depth).origin.entries.zip
        (rr.orderByDepth depth).target.entries).Perm
      (rr.origin.entries.zip rr.target.entries) ∧
    (∀ (i : Nat) (p : Entry × Entry),
      ((rr.orderByDepth depth).origin.entries.zip
        (rr.orderByDepth depth).target.entries)[i]? = some p →
      p ∈ rr.origin.entries.zip rr.target.entries) := by
  unfold RenameRequest.orderByDepth
  simp only
  have hperm : ((List.range rr.origin.entries.length).mergeSort (fun i j =>
      FileList.depthKey depth (rr.origin.entries.getD i ⟨0, []⟩) ≤
        FileList.depthKey depth (rr.origin.entries.getD j ⟨0, []⟩))).Perm
      (List.range rr.origin.entries.length) :=
    List.mergeSort_perm _ _
  have hzip : ((((List.range rr.origin.entries.length).mergeSort (fun i j =>
        FileList.depthKey depth (rr.origin.entries.getD i ⟨0, []⟩) ≤
          FileList.depthKey depth (rr.origin.entries.getD j ⟨0, []⟩))).map
        (fun i => rr.origin.entries.getD i ⟨0, []⟩)).zip
      (((List.range rr.origin.entries.length).mergeSort (fun i j =>
        FileList.depthKey depth (rr.origin.entries.getD i ⟨0, []⟩) ≤
          FileList.depthKey depth (rr.origin.entries.getD j ⟨0, []⟩))).map
        (fun i => rr.target.entries.getD i ⟨0, []⟩))).Perm
      (rr.origin.entries.zip rr.target.entries) := by
    rw [List.zip_map']
    have := hperm.map (fun i =>
      (rr.origin.entries.getD i ⟨0, []⟩, rr.target.entries.getD i ⟨0, []⟩))
    rw [range_map_getD_zip rr.origin.entries rr.target.entries hlen] at this
    exact this
  refine ⟨?_, ?_, hzip, ?_⟩
  · rw [List.length_map, List.length_mergeSort, List.length_range]
  · rw [List.length_map, List.length_mergeSort, List.length_range, hlen]
  · intro i p hp
    exact hzip.subset (List.getElem?_mem hp)

/-- Witness for `orderByDepth_alignment` on two aligned two-entry lists
with distinct depths. -/
theorem orderByDepth_alignment_witness :
    ((RenameRequest.mk (FileList.fromString ("a\nbb".toList))
        (FileList.fromString ("x\nyy".toList))).orderByDepth
          (fun p => p.length)).origin.entries.length =
      (FileList.fromString ("a\nbb".toList)).entries.length ∧
    ((RenameRequest.mk (FileList.fromString ("a\nbb".toList))
        (FileList.fromString ("x\nyy".toList))).orderByDepth
          (fun p => p.length)).target.entries.length =
      (FileList.fromString ("x\nyy".toList)).entries.length ∧
    ((((RenameRequest.mk (FileList.fromString ("a\nbb".toList))
        (FileList.fromString ("x\nyy".toList))).orderByDepth
          (fun p => p.length)).origin.entries).zip
      (((RenameRequest.mk (FileList.fromString ("a\nbb".toList))
        (FileList.fromString ("x\nyy".toList))).orderByDepth
          (fun p => p.length)).target.entries)).Perm
      ((FileList.fromString ("a\nbb".toList)).entries.zip
        (FileList.fromString ("x\nyy".toList)).entries) := by
  have h := orderByDepth_alignment (fun p => p.length)
    (RenameRequest.mk (FileList.fromString ("a\nbb".toList))
      (FileList.fromString ("x\nyy".toList))) (by decide)
  exact ⟨h.1, h.2.1, h.2.2.1⟩
